import Mathlib

/-
Shallow embedding of the PlexComskip commercial-removal pipeline
(PlexComskip.py) and proofs about its core components: the EDL parser,
the segment deriver, the segment padder/merger, the parallel extractor,
the resilient process runner, the output validator and the session
workspace lifecycle.  Times and sizes are modelled with exact rationals
and naturals; external processes are modelled by explicit behaviour
functions; Python exceptions are modelled with Except/Option.
-/

namespace PlexComskip

/-- The EDL action enumeration: `Action.SKIP = b'0'`, `Action.MUTE = b'1'`. -/
inductive Action where
  | SKIP
  | MUTE
deriving DecidableEq, Repr

/-- A keep-segment `Segment = namedtuple('Segment', ['start', 'end'])`.
Times are modelled as rationals. -/
structure Segment where
  start : ℚ
  «end» : ℚ
deriving DecidableEq, Repr

/-- The sentinel end value `-1` meaning "to end of file". -/
def SENTINEL : ℚ := -1

/-- An EDL entry `(start, end, action)` as yielded by `parse_edl`. -/
abbrev EdlEntry := ℚ × ℚ × Action

/-- The inner helper of `edl_to_segments`: `maybe_yield` yields a segment
only when `segment.start < segment.end`. -/
def maybe_yield (s : Segment) : List Segment :=
  if s.start < s.«end» then [s] else []

/-- `itertools.pairwise`: adjacent pairs of a list. -/
def pairwise_adj (l : List α) : List (α × α) := l.zip l.tail

/-- `edl_to_segments` from PlexComskip.py: walks adjacent pairs of the EDL
drop-intervals with `enumerate(pairwise(edl_segments))`; on the first pair
it additionally yields the leading segment `(0, start)` (when non-empty),
for every pair it yields the gap `(end, next_start)` (when non-empty), and
after the loop it yields `(next_end, -1)` where `next_end` was initialised
to `0.0` ("Handle empty input") and holds the second member's end time of
the last pair iterated. -/
def edl_to_segments (edl_segments : List EdlEntry) : List Segment :=
  let pairs := pairwise_adj edl_segments
  let body := (pairs.enum.map fun p =>
    match p with
    | (num, (start, e, _), (next_start, _, _)) =>
      (if num = 0 then maybe_yield ⟨0, start⟩ else []) ++
        maybe_yield ⟨e, next_start⟩).flatten
  let next_end : ℚ :=
    match pairs.getLast? with
    | some (_, (_, next_end, _)) => next_end
    | none => 0
  body ++ [⟨next_end, SENTINEL⟩]

/-! EDL parsing.  `parse_edl` reads each line with `data = line.split()`,
then evaluates `float(data[0])`, `float(data[1])`, `Action(data[2])`,
raising (IndexError / ValueError) when a field is missing or does not
convert.  A whitespace-separated token is abstracted by what it converts
to: the byte strings `b"0"` and `b"1"` convert both to a float and to an
action, every other numeric literal converts only to a float, and any
remaining token converts to neither. -/

/-- A whitespace-separated token of an EDL line. -/
inductive Tok where
  | digit0
  | digit1
  | num (q : ℚ)
  | junk
deriving DecidableEq, Repr

/-- `float(tok)`: Python float conversion of a token, `none` = ValueError. -/
def tok_float : Tok → Option ℚ
  | Tok.digit0 => some 0
  | Tok.digit1 => some 1
  | Tok.num q => some q
  | Tok.junk => none

/-- `Action(tok)`: enum lookup of a token, `none` = ValueError. -/
def tok_action : Tok → Option Action
  | Tok.digit0 => some Action.SKIP
  | Tok.digit1 => some Action.MUTE
  | _ => none

/-- One iteration of the `parse_edl` loop: `data = line.split()`, then
`start = float(data[0])`, `end = float(data[1])`, `action = Action(data[2])`.
Indexing past the end of `data` raises; extra fields are never read. -/
def parse_edl_line (data : List Tok) : Option EdlEntry :=
  match data with
  | d0 :: d1 :: d2 :: _ =>
    match tok_float d0, tok_float d1, tok_action d2 with
    | some start, some e, some action => some (start, e, action)
    | _, _, _ => none
  | _ => none

/-- `parse_edl`, fully consumed: yields the entries in line order, the
first failing line aborting the whole parse. -/
def parse_edl : List (List Tok) → Option (List EdlEntry)
  | [] => some []
  | line :: rest =>
    match parse_edl_line line, parse_edl rest with
    | some e, some es => some (e :: es)
    | _, _ => none

/-- A line is malformed when it has fewer than three fields, a timestamp
field that is not numeric, or an action field outside the enumeration.
Fields beyond the third are not inspected. -/
def line_malformed (data : List Tok) : Prop :=
  match data with
  | d0 :: d1 :: d2 :: _ =>
    tok_float d0 = none ∨ tok_float d1 = none ∨ tok_action d2 = none
  | _ => True

instance (data : List Tok) : Decidable (line_malformed data) := by
  unfold line_malformed
  match data with
  | d0 :: d1 :: d2 :: _ => exact inferInstance
  | [] => exact inferInstance
  | [_] => exact inferInstance
  | [_, _] => exact inferInstance

/-! The segment padder/merger `extend_end`. -/

/-- The list comprehension of `extend_end`: a segment's end is padded by
`amount` when `s.end > 0`, otherwise the segment is left alone. -/
def pad (amount : ℚ) (s : Segment) : Segment :=
  if s.«end» > 0 then ⟨s.start, s.«end» + amount⟩ else s

/-- The merging loop of `extend_end`, with `cur` the accumulated segment
(`none` before the first iteration): when `cur.end < segment.start` the
accumulated segment is flushed, otherwise it is fused into
`Segment(cur.start, segment.end)`; a pending `cur` is appended at the
end. -/
def merge_segments : Option Segment → List Segment → List Segment
  | none, [] => []
  | some cur, [] => [cur]
  | none, seg :: rest => merge_segments (some seg) rest
  | some cur, seg :: rest =>
    if cur.«end» < seg.start then cur :: merge_segments (some seg) rest
    else merge_segments (some ⟨cur.start, seg.«end»⟩) rest

/-- `extend_end(segments, amount=5.0)` from PlexComskip.py. -/
def extend_end (segments : List Segment) (amount : ℚ) : List Segment :=
  merge_segments none (segments.map (pad amount))

/-! The output validator `replace_original`, abstracted over the two
file sizes (`os.path.getsize` results, in bytes).  `Except.ok b` models
`return b` and `Except.error ()` models `raise Exception('Wonky size')`. -/

/-- `replace_original` size logic: `if input_size and 1.01 > out/in > 0.99`
return `False`; `elif input_size and 1.1 > out/in > 0.5` return `True`;
else raise. -/
def replace_original (input_size output_size : ℕ) : Except Unit Bool :=
  if input_size ≠ 0 ∧ (101 / 100 : ℚ) > (output_size : ℚ) / (input_size : ℚ)
      ∧ (output_size : ℚ) / (input_size : ℚ) > 99 / 100 then
    Except.ok false
  else if input_size ≠ 0 ∧ (11 / 10 : ℚ) > (output_size : ℚ) / (input_size : ℚ)
      ∧ (output_size : ℚ) / (input_size : ℚ) > 1 / 2 then
    Except.ok true
  else
    Except.error ()

/-! The resilient process runner `call_and_retry`.  The external command's
behaviour is a function from the attempt number to an outcome; `-11` is
`-signal.SIGSEGV` on the platforms the script targets. -/

/-- Result of one `subprocess.check_call`: normal return or a
`CalledProcessError` carrying the return code. -/
inductive Outcome where
  | success
  | fail (returncode : Int)
deriving DecidableEq, Repr

/-- Result of `call_and_retry`: it returned after making `callsMade`
invocations, raised the final `CalledProcessError` after `callsMade`
invocations, or fell out of the loop without invoking (retries = 0). -/
inductive RunResult where
  | ok (callsMade : ℕ)
  | raised (returncode : Int) (callsMade : ℕ)
  | fellThrough
deriving DecidableEq, Repr

/-- `signal.SIGSEGV`. -/
def SIGSEGV : Int := 11

/-- The `for num in range(retries)` loop of `call_and_retry`, entered at
iteration `num`: a successful call returns; a `CalledProcessError` whose
code is not `-signal.SIGSEGV` is re-raised at once; a segfault on the last
iteration (`num == retries - 1`) is re-raised; otherwise the loop
continues. -/
def call_and_retry_from (behavior : ℕ → Outcome) (retries num : ℕ) : RunResult :=
  if _h : num < retries then
    match behavior num with
    | Outcome.success => RunResult.ok (num + 1)
    | Outcome.fail rc =>
      if rc ≠ -SIGSEGV then RunResult.raised rc (num + 1)
      else if num = retries - 1 then RunResult.raised rc (num + 1)
      else call_and_retry_from behavior retries (num + 1)
  else RunResult.fellThrough
termination_by retries - num
decreasing_by omega

/-- `call_and_retry(cmd, retries=2)` from PlexComskip.py. -/
def call_and_retry (behavior : ℕ → Outcome) (retries : ℕ) : RunResult :=
  call_and_retry_from behavior retries 0

/-- The default retry bound of `call_and_retry`. -/
def DEFAULT_RETRIES : ℕ := 2

/-! The parallel extractor `write_segment_file` / `write_segments`.
The ffmpeg extraction of one segment is modelled by a behaviour function
from the segment index and segment to either an error (the exception
`make_segment_file` re-raises) or the byte size of the file it produced;
the produced file `segment-i.ext` is identified by its index `i`. -/

/-- The byte-size threshold below which an extracted segment file is
treated as bogus. -/
def MIN_SEGMENT_SIZE : ℕ := 1000

/-- `write_segment_file(input_video, i, segment)`: runs the extraction,
then returns `None` when the resulting file is smaller than 1000 bytes,
and the segment file (identified by its index) otherwise.  An extraction
exception propagates. -/
def write_segment_file (extract : ℕ → Segment → Except Unit ℕ) (i : ℕ)
    (segment : Segment) : Except Unit (Option ℕ) :=
  match extract i segment with
  | Except.error e => Except.error e
  | Except.ok size =>
    if size < MIN_SEGMENT_SIZE then Except.ok none else Except.ok (some i)

/-- `Pool.starmap(partial(write_segment_file, input_video),
enumerate(segments))`: the workers run concurrently but the result list
is ordered by the input enumeration, and a worker's exception is
re-raised by `starmap`. -/
def starmap_write (extract : ℕ → Segment → Except Unit ℕ) :
    List (ℕ × Segment) → Except Unit (List (Option ℕ))
  | [] => Except.ok []
  | (i, seg) :: rest =>
    match write_segment_file extract i seg, starmap_write extract rest with
    | Except.ok f, Except.ok fs => Except.ok (f :: fs)
    | Except.error e, _ => Except.error e
    | _, Except.error e => Except.error e

/-- `write_segments(input_video, temp_dir, segments)`: starmap over the
enumerated segments, then drop the `None` markers. -/
def write_segments (extract : ℕ → Segment → Except Unit ℕ)
    (segments : List Segment) : Except Unit (List ℕ) :=
  match starmap_write extract segments.enum with
  | Except.error e => Except.error e
  | Except.ok names => Except.ok (names.filterMap id)

/-! The session workspace `work_dir` context manager and
`cleanup_and_exit`.  The filesystem state is reduced to whether the
session directory exists and whether the cleanup step ran; the body of
the `with` block is modelled by its outcome, a normal value or a raised
exception. -/

/-- Observable state of the session workspace. -/
structure WorkspaceState where
  dirExists : Bool
  cleanupRan : Bool
deriving DecidableEq, Repr

/-- `cleanup_and_exit(temp_dir, keep_temp)`: leaves the directory in
place when `keep_temp` is set, removes it otherwise. -/
def cleanup_and_exit (keep_temp : Bool) (st : WorkspaceState) : WorkspaceState :=
  { dirExists := if keep_temp then st.dirExists else false, cleanupRan := true }

/-- `work_dir(temp_root, session_uuid, save_always, save_forensics)`:
creates the directory, sets `keep = save_always`, yields to the body; on
an exception `keep` is or-ed with `save_forensics` and the exception is
re-raised; the `finally` clause always runs `cleanup_and_exit` with the
decided `keep`.  Returns the propagated body outcome and the final
workspace state. -/
def work_dir (save_always save_forensics : Bool) (body : Except Unit α) :
    Except Unit α × WorkspaceState :=
  let st : WorkspaceState := { dirExists := true, cleanupRan := false }
  match body with
  | Except.ok a => (Except.ok a, cleanup_and_exit save_always st)
  | Except.error e =>
    (Except.error e, cleanup_and_exit (save_always || save_forensics) st)

/-! Specification-side definitions.  `extend_end_spec` is written from the
spec's words for the Segment Padder/Merger, to be compared with the
source-translated `extend_end`: pad every finite end by the margin and
never the sentinel; scanning left to right, fuse when the accumulated end
is ≥ the next start, the fused segment spanning from the accumulated
start to the later end with a sentinel end dominating any finite end. -/

/-- Spec-side padding: a finite end is extended by the margin, a sentinel
end never. -/
def pad_spec (amount : ℚ) (s : Segment) : Segment :=
  if s.«end» = SENTINEL then s else ⟨s.start, s.«end» + amount⟩

/-- Spec-side fuse: spans from the accumulated start to the later end,
the sentinel end dominating any finite end. -/
def fuse (a b : Segment) : Segment :=
  ⟨a.start,
    if a.«end» = SENTINEL ∨ b.«end» = SENTINEL then SENTINEL
    else max a.«end» b.«end»⟩

/-- Spec-side merge scan: fuse whenever the accumulated end is ≥ the next
start, otherwise flush the accumulated segment. -/
def merge_spec : Option Segment → List Segment → List Segment
  | none, [] => []
  | some cur, [] => [cur]
  | none, seg :: rest => merge_spec (some seg) rest
  | some cur, seg :: rest =>
    if cur.«end» ≥ seg.start then merge_spec (some (fuse cur seg)) rest
    else cur :: merge_spec (some seg) rest

/-- The Segment Padder/Merger as the spec words it. -/
def extend_end_spec (segments : List Segment) (amount : ℚ) : List Segment :=
  merge_spec none (segments.map (pad_spec amount))

/-- An ordered keep-segment list in which only the final segment may
carry the sentinel end: every segment starts at a non-negative time, all
but the last are finite with positive length and end no later than the
next segment starts, and the last is either sentinel-ended or finite with
positive length. -/
def ordered_keep : List Segment → Bool
  | [] => true
  | [s] =>
    decide (0 ≤ s.start) &&
      (decide (s.«end» = SENTINEL) || decide (s.start < s.«end»))
  | a :: b :: rest =>
    decide (0 ≤ a.start) && decide (a.start < a.«end») &&
      decide (a.«end» ≤ b.start) && ordered_keep (b :: rest)

/-- Invariant of a padded segment list entering the merge scan: every
segment except possibly the last has a non-sentinel end that is at most
the next segment's end (unless that next end is the sentinel). -/
def merge_pre : List Segment → Prop
  | [] => True
  | [_] => True
  | a :: b :: rest =>
    a.«end» ≠ SENTINEL ∧ (b.«end» = SENTINEL ∨ a.«end» ≤ b.«end») ∧
      merge_pre (b :: rest)

/-! Example extraction behaviours used to witness the parallel-extractor
properties: `extract_ex` produces a 12-byte file for segment 1 and
5000-byte files otherwise; `extract_err` fails on segment 1. -/

/-- Extraction behaviour whose segment 1 comes out below the size
threshold. -/
def extract_ex (i : ℕ) (_ : Segment) : Except Unit ℕ :=
  if i = 1 then Except.ok 12 else Except.ok 5000

/-- Extraction behaviour whose segment 1 fails outright. -/
def extract_err (i : ℕ) (_ : Segment) : Except Unit ℕ :=
  if i = 1 then Except.error () else Except.ok 5000

/-- A concrete segment list used to witness the extractor properties. -/
def segments_ex : List Segment := [⟨0, 10⟩, ⟨10, 20⟩, ⟨20, -1⟩]

/-! Theorems. -/

/-- C1: the claim says a single-entry EDL `[(s, e, SKIP)]` with
`0 < s < e` yields `[(0, s), (e, SENTINEL)]`; the code instead walks
`pairwise(edl_segments)`, which is empty on a one-entry list, so neither
the leading keep-segment nor the drop-interval's end is ever seen:
`edl_to_segments [(10, 20, SKIP)] = [(0, SENTINEL)]`, keeping the whole
file, drop-interval included.  This contradicts the function's own
documentation ("Yields segments to keep", "the opposite of the EDL,
which lists segments to remove") and breaks the partition property. -/
theorem edl_to_segments_singleton_drop_ignored :
    edl_to_segments [((10 : ℚ), 20, Action.SKIP)] = [⟨0, SENTINEL⟩] := by
  decide

/-- C2 counterexample: the claim says a 0-byte input short-circuits to
returning `False` without raising; in the code both truthiness guards
are false when `input_size == 0`, so control reaches the `else` branch
and `Exception('Wonky size')` is raised. -/
theorem replace_original_zero_input_raises :
    replace_original 0 500 = Except.error () := by
  simp [replace_original]

/-- C2 amended: when the input file size is 0 bytes, the truthiness
guards short-circuit before any division is taken, and the operation
raises the wonky-size error for every output size — a non-replace
outcome reached by exception, not by returning `False`. -/
theorem replace_original_zero_input_wonky (output_size : ℕ) :
    replace_original 0 output_size = Except.error () := by
  simp [replace_original]

/-- C3 counterexample: the claim says a line with too many fields is
rejected; the code indexes `data[0..2]` of `line.split()` and never
looks at later fields, so a four-field line whose first three fields are
well formed parses successfully. -/
theorem parse_edl_accepts_four_field_line :
    parse_edl [[Tok.num 1, Tok.num 2, Tok.digit0, Tok.junk]] =
      some [(1, 2, Action.SKIP)] := rfl

/-- A line fails to parse exactly when it is malformed in the amended
sense: fewer than three fields, a non-numeric timestamp field, or an
action field outside the enumeration. -/
theorem parse_edl_line_eq_none_iff (data : List Tok) :
    parse_edl_line data = none ↔ line_malformed data := by
  match data with
  | [] => simp [parse_edl_line, line_malformed]
  | [d0] => simp [parse_edl_line, line_malformed]
  | [d0, d1] => simp [parse_edl_line, line_malformed]
  | d0 :: d1 :: d2 :: rest =>
    simp only [parse_edl_line, line_malformed]
    cases hf0 : tok_float d0 <;> cases hf1 : tok_float d1 <;>
      cases ha : tok_action d2 <;> simp

/-- C3 amended: parsing fails exactly when some line has fewer than
three whitespace-separated fields, a non-numeric timestamp, or an
unrecognized action code — fields beyond the third are ignored — and on
success the EDL parses to its per-line entries in line order. -/
theorem parse_edl_failure_characterization (lines : List (List Tok)) :
    (parse_edl lines = none ↔ ∃ l ∈ lines, line_malformed l) ∧
    (parse_edl lines = none ∨
      parse_edl lines = some (lines.filterMap parse_edl_line)) := by
  induction lines with
  | nil => simp [parse_edl]
  | cons line rest ih =>
    obtain ⟨ih1, ih2⟩ := ih
    constructor
    · simp only [parse_edl, List.mem_cons]
      cases hline : parse_edl_line line with
      | none =>
        simp only [true_iff]
        exact ⟨line, Or.inl rfl, (parse_edl_line_eq_none_iff line).mp hline⟩
      | some e =>
        cases hrest : parse_edl rest with
        | none =>
          simp only [true_iff]
          obtain ⟨l, hl, hml⟩ := ih1.mp hrest
          exact ⟨l, Or.inr hl, hml⟩
        | some es =>
          constructor
          · intro hc
            exact Option.noConfusion hc
          · rintro ⟨l, hl, hml⟩
            exfalso
            rcases hl with rfl | hl
            · rw [← parse_edl_line_eq_none_iff, hline] at hml
              exact Option.noConfusion hml
            · have hr2 := ih1.mpr ⟨l, hl, hml⟩
              rw [hrest] at hr2
              exact Option.noConfusion hr2
    · cases hline : parse_edl_line line with
      | none => left; simp [parse_edl, hline]
      | some e =>
        rcases ih2 with hnone | hsome
        · left; simp [parse_edl, hline, hnone]
        · right
          simp [parse_edl, hline, hsome, List.filterMap_cons]

/-- C4: for a positive input size, `replace_original` returns `False`
(too similar, keep the original) exactly when the size ratio lies in
(0.99, 1.01); returns `True` (plausible, replace) exactly when the ratio
lies in (0.5, 1.1) but not in the too-similar band; and raises the
wonky-size error exactly when the ratio is ≤ 0.5 or ≥ 1.1. -/
theorem replace_original_classification (input_size output_size : ℕ)
    (h : 0 < input_size) :
    (replace_original input_size output_size = Except.ok false ↔
      (99 / 100 : ℚ) < (output_size : ℚ) / (input_size : ℚ) ∧
        (output_size : ℚ) / (input_size : ℚ) < 101 / 100) ∧
    (replace_original input_size output_size = Except.ok true ↔
      ((1 / 2 : ℚ) < (output_size : ℚ) / (input_size : ℚ) ∧
        (output_size : ℚ) / (input_size : ℚ) < 11 / 10) ∧
      ¬((99 / 100 : ℚ) < (output_size : ℚ) / (input_size : ℚ) ∧
        (output_size : ℚ) / (input_size : ℚ) < 101 / 100)) ∧
    (replace_original input_size output_size = Except.error () ↔
      ((output_size : ℚ) / (input_size : ℚ) ≤ 1 / 2 ∨
        (11 / 10 : ℚ) ≤ (output_size : ℚ) / (input_size : ℚ))) := by
  have hne : input_size ≠ 0 := Nat.pos_iff_ne_zero.mp h
  set r : ℚ := (output_size : ℚ) / (input_size : ℚ) with hrdef
  unfold replace_original
  by_cases h1 : (101 / 100 : ℚ) > r ∧ r > 99 / 100
  · rw [if_pos ⟨hne, h1⟩]
    refine ⟨iff_of_true rfl ⟨h1.2, h1.1⟩, ?_, ?_⟩
    · refine iff_of_false (by simp) ?_
      rintro ⟨-, hc⟩
      exact hc ⟨h1.2, h1.1⟩
    · refine iff_of_false (by simp) ?_
      rintro (hc | hc) <;> linarith [h1.1, h1.2]
  · rw [if_neg (fun hc => h1 hc.2)]
    by_cases h2 : (11 / 10 : ℚ) > r ∧ r > 1 / 2
    · rw [if_pos ⟨hne, h2⟩]
      refine ⟨?_, ?_, ?_⟩
      · refine iff_of_false (by simp) ?_
        rintro ⟨ha, hb⟩
        exact h1 ⟨hb, ha⟩
      · exact iff_of_true rfl ⟨⟨h2.2, h2.1⟩, fun hc => h1 ⟨hc.2, hc.1⟩⟩
      · refine iff_of_false (by simp) ?_
        rintro (hc | hc) <;> linarith [h2.1, h2.2]
    · rw [if_neg (fun hc => h2 hc.2)]
      rw [not_and_or, not_lt, not_lt] at h2
      refine ⟨?_, ?_, iff_of_true rfl (h2.elim Or.inr Or.inl)⟩
      · refine iff_of_false (by simp) ?_
        rintro ⟨ha, hb⟩
        rcases h2 with hc | hc <;> linarith
      · refine iff_of_false (by simp) ?_
        rintro ⟨⟨ha, hb⟩, -⟩
        rcases h2 with hc | hc <;> linarith

/-- C4 witness: the spec's three worked examples, obtained by applying
the classification theorem at input 1000 with outputs 1000, 700 and
2000. -/
theorem replace_original_classification_witness :
    replace_original 1000 1000 = Except.ok false ∧
    replace_original 1000 700 = Except.ok true ∧
    replace_original 1000 2000 = Except.error () :=
  ⟨((replace_original_classification 1000 1000 (by norm_num)).1).mpr
      (by norm_num),
   ((replace_original_classification 1000 700 (by norm_num)).2.1).mpr
      (by norm_num),
   ((replace_original_classification 1000 2000 (by norm_num)).2.2).mpr
      (by norm_num)⟩

/-- C9: the session workspace's cleanup step runs on every exit path,
the body's outcome (normal value or raised exception) is propagated
unchanged, and the directory is retained exactly when `save_always` is
set or the body raised and `save_forensics` is set. -/
theorem work_dir_retention {α : Type} (save_always save_forensics : Bool)
    (body : Except Unit α) :
    (work_dir save_always save_forensics body).1 = body ∧
    (work_dir save_always save_forensics body).2.cleanupRan = true ∧
    ((work_dir save_always save_forensics body).2.dirExists = true ↔
      (save_always = true ∨ (body.isOk = false ∧ save_forensics = true))) := by
  cases body <;> cases save_always <;> cases save_forensics <;>
    simp [work_dir, cleanup_and_exit, Except.isOk, Except.toBool]

/-- The merge loop with a pending segment always produces a nonempty
list whose head starts where the pending segment starts. -/
theorem merge_segments_head (l : List Segment) (cur : Segment) :
    ∃ e tl, merge_segments (some cur) l = ⟨cur.start, e⟩ :: tl := by
  induction l generalizing cur with
  | nil => exact ⟨cur.«end», [], rfl⟩
  | cons seg rest ih =>
    by_cases h : cur.«end» < seg.start
    · exact ⟨cur.«end», merge_segments (some seg) rest,
        by rw [merge_segments, if_pos h]⟩
    · obtain ⟨e, tl, heq⟩ := ih ⟨cur.start, seg.«end»⟩
      exact ⟨e, tl, by rw [merge_segments, if_neg h]; exact heq⟩

/-- The merge loop's output has strictly separated consecutive segments:
each segment ends strictly before the next one starts. -/
theorem merge_segments_chain (l : List Segment) (cur : Segment) :
    List.Chain' (fun a b => a.«end» < b.start) (merge_segments (some cur) l) := by
  induction l generalizing cur with
  | nil => simp [merge_segments]
  | cons seg rest ih =>
    by_cases h : cur.«end» < seg.start
    · rw [merge_segments, if_pos h]
      obtain ⟨e, tl, heq⟩ := merge_segments_head rest seg
      rw [heq, List.chain'_cons]
      exact ⟨h, heq ▸ ih seg⟩
    · rw [merge_segments, if_neg h]
      exact ih _

/-- Every segment produced by the merge loop starts where the pending
segment or one of the remaining input segments starts. -/
theorem merge_segments_starts (l : List Segment) (cur s : Segment)
    (hs : s ∈ merge_segments (some cur) l) :
    s.start = cur.start ∨ ∃ s' ∈ l, s.start = s'.start := by
  induction l generalizing cur with
  | nil =>
    rw [merge_segments] at hs
    rcases List.mem_singleton.mp hs with rfl
    exact Or.inl rfl
  | cons seg rest ih =>
    by_cases h : cur.«end» < seg.start
    · rw [merge_segments, if_pos h] at hs
      rcases List.mem_cons.mp hs with rfl | hs'
      · exact Or.inl rfl
      · rcases ih seg hs' with h' | ⟨s', hs'', h'⟩
        · exact Or.inr ⟨seg, List.mem_cons_self seg rest, h'⟩
        · exact Or.inr ⟨s', List.mem_cons_of_mem seg hs'', h'⟩
    · rw [merge_segments, if_neg h] at hs
      rcases ih ⟨cur.start, seg.«end»⟩ hs with h' | ⟨s', hs'', h'⟩
      · exact Or.inl h'
      · exact Or.inr ⟨s', List.mem_cons_of_mem seg hs'', h'⟩

/-- The merge loop never lengthens the list: with a pending segment it
produces at most one more segment than it consumes. -/
theorem merge_segments_length (l : List Segment) (cur : Segment) :
    (merge_segments (some cur) l).length ≤ l.length + 1 := by
  induction l generalizing cur with
  | nil => simp [merge_segments]
  | cons seg rest ih =>
    by_cases h : cur.«end» < seg.start
    · rw [merge_segments, if_pos h]
      simpa using Nat.succ_le_succ (ih seg)
    · rw [merge_segments, if_neg h]
      exact le_trans (ih _) (by simp)

/-- On a list that is already strictly separated from the pending
segment onward, the merge loop is the identity. -/
theorem merge_segments_of_chain (l : List Segment) (cur : Segment)
    (h : List.Chain' (fun a b => a.«end» < b.start) (cur :: l)) :
    merge_segments (some cur) l = cur :: l := by
  induction l generalizing cur with
  | nil => rfl
  | cons seg rest ih =>
    have h1 := (List.chain'_cons.mp h).1
    have h2 := (List.chain'_cons.mp h).2
    rw [merge_segments, if_pos h1, ih seg h2]

/-- Padding preserves the start time. -/
theorem pad_start (amount : ℚ) (s : Segment) : (pad amount s).start = s.start := by
  unfold pad
  split <;> rfl

/-- Padding by a zero margin is the identity. -/
theorem pad_zero (s : Segment) : pad 0 s = s := by
  unfold pad
  split
  · rw [add_zero]
  · rfl

/-- C10: for every input list and margin, the output of `extend_end` has
each segment ending strictly before the next begins, every output
segment starts at the start of some input segment, and the empty input
yields the empty output. -/
theorem extend_end_invariants (l : List Segment) (m : ℚ) :
    List.Chain' (fun a b => a.«end» < b.start) (extend_end l m) ∧
    (∀ s ∈ extend_end l m, ∃ s' ∈ l, s.start = s'.start) ∧
    extend_end ([] : List Segment) m = [] := by
  refine ⟨?_, ?_, rfl⟩
  · unfold extend_end
    cases hmap : l.map (pad m) with
    | nil => simp [merge_segments]
    | cons c rest =>
      rw [show merge_segments none (c :: rest) = merge_segments (some c) rest
        from by rw [merge_segments]]
      exact merge_segments_chain rest c
  · intro s hs
    unfold extend_end at hs
    cases hmap : l.map (pad m) with
    | nil => rw [hmap, merge_segments] at hs; cases hs
    | cons c rest =>
      rw [hmap] at hs
      rw [show merge_segments none (c :: rest) = merge_segments (some c) rest
        from by rw [merge_segments]] at hs
      have hmem : ∀ x : Segment, x ∈ c :: rest → ∃ s' ∈ l, x.start = s'.start := by
        intro x hx
        rw [← hmap] at hx
        obtain ⟨s', hs', hps⟩ := List.mem_map.mp hx
        exact ⟨s', hs', by rw [← hps, pad_start]⟩
      rcases merge_segments_starts rest c s hs with h' | ⟨s', hs', h'⟩
      · obtain ⟨x, hx, hxs⟩ := hmem c (List.mem_cons_self c rest)
        exact ⟨x, hx, by rw [h', hxs]⟩
      · obtain ⟨x, hx, hxs⟩ := hmem s' (List.mem_cons_of_mem c hs')
        exact ⟨x, hx, by rw [h', hxs]⟩

/-- C6: re-applying `extend_end` with margin 0 to its own output is a
no-op, and the output never has more segments than the input. -/
theorem extend_end_idempotent (l : List Segment) (m : ℚ) (hm : 0 ≤ m) :
    extend_end (extend_end l m) 0 = extend_end l m ∧
    (extend_end l m).length ≤ l.length := by
  constructor
  · have hchain : List.Chain' (fun a b => a.«end» < b.start) (extend_end l m) := by
      unfold extend_end
      cases hmap : l.map (pad m) with
      | nil => simp [merge_segments]
      | cons c rest =>
        rw [show merge_segments none (c :: rest) = merge_segments (some c) rest
          from by rw [merge_segments]]
        exact merge_segments_chain rest c
    show merge_segments none ((extend_end l m).map (pad 0)) = extend_end l m
    rw [List.map_id'' pad_zero (extend_end l m)]
    cases hr : extend_end l m with
    | nil => rfl
    | cons c rest =>
      rw [show merge_segments none (c :: rest) = merge_segments (some c) rest
        from by rw [merge_segments]]
      exact merge_segments_of_chain rest c (hr ▸ hchain)
  · unfold extend_end
    cases hmap : l.map (pad m) with
    | nil => simp [merge_segments]
    | cons c rest =>
      rw [show merge_segments none (c :: rest) = merge_segments (some c) rest
        from by rw [merge_segments]]
      have hlen : l.length = rest.length + 1 := by
        rw [← List.length_map l (pad m), hmap, List.length_cons]
      rw [hlen]
      exact merge_segments_length rest c

/-- C6 witness: the idempotence and length bound at the spec's worked
example with margin 5. -/
theorem extend_end_idempotent_witness :
    (0 : ℚ) ≤ 5 ∧
    extend_end (extend_end [⟨5, 96⟩, ⟨100, 120⟩, ⟨130, -1⟩] 5) 0 =
      extend_end [⟨5, 96⟩, ⟨100, 120⟩, ⟨130, -1⟩] 5 ∧
    (extend_end [⟨5, 96⟩, ⟨100, 120⟩, ⟨130, -1⟩] 5).length ≤ 3 :=
  ⟨by norm_num,
   (extend_end_idempotent [⟨5, 96⟩, ⟨100, 120⟩, ⟨130, -1⟩] 5 (by norm_num)).1,
   (extend_end_idempotent [⟨5, 96⟩, ⟨100, 120⟩, ⟨130, -1⟩] 5 (by norm_num)).2⟩

/-- Destructuring an ordered keep list with at least two segments. -/
theorem ordered_keep_cons_cons {a b : Segment} {rest : List Segment}
    (h : ordered_keep (a :: b :: rest) = true) :
    0 ≤ a.start ∧ a.start < a.«end» ∧ a.«end» ≤ b.start ∧
      ordered_keep (b :: rest) = true := by
  simp only [ordered_keep, Bool.and_eq_true, decide_eq_true_eq] at h
  exact ⟨h.1.1.1, h.1.1.2, h.1.2, h.2⟩

/-- The head of an ordered keep list is sentinel-ended or has positive
length. -/
theorem ordered_keep_head {b : Segment} {rest : List Segment}
    (h : ordered_keep (b :: rest) = true) :
    0 ≤ b.start ∧ (b.«end» = SENTINEL ∨ b.start < b.«end») := by
  cases rest with
  | nil =>
    simp only [ordered_keep, Bool.and_eq_true, Bool.or_eq_true,
      decide_eq_true_eq] at h
    exact h
  | cons c rest' =>
    obtain ⟨h0, h1, -, -⟩ := ordered_keep_cons_cons h
    exact ⟨h0, Or.inr h1⟩

/-- In an ordered keep list every segment's end is the sentinel or
positive. -/
theorem ordered_keep_end_pos {l : List Segment} (h : ordered_keep l = true) :
    ∀ s ∈ l, s.«end» = SENTINEL ∨ 0 < s.«end» := by
  induction l with
  | nil => intro s hs; cases hs
  | cons a rest ih =>
    intro s hs
    rcases List.mem_cons.mp hs with rfl | hs'
    · rcases ordered_keep_head h with ⟨h0, hsent | hlt⟩
      · exact Or.inl hsent
      · exact Or.inr (lt_of_le_of_lt h0 hlt)
    · cases rest with
      | nil => cases hs'
      | cons b rest' =>
        exact ih (ordered_keep_cons_cons h).2.2.2 s hs'

/-- On an ordered keep list, the source's padding (skips non-positive
ends) and the spec's padding (skips exactly the sentinel) coincide. -/
theorem map_pad_eq_map_pad_spec {l : List Segment}
    (h : ordered_keep l = true) (m : ℚ) :
    l.map (pad m) = l.map (pad_spec m) := by
  refine List.map_congr_left fun s hs => ?_
  rcases ordered_keep_end_pos h s hs with hsent | hpos
  · rw [pad, pad_spec, if_pos hsent, if_neg (by rw [hsent, SENTINEL]; norm_num)]
  · rw [pad, pad_spec, if_pos hpos,
      if_neg (by rw [SENTINEL]; intro hc; rw [hc] at hpos; norm_num at hpos)]

/-- A merge precondition only constrains the head through its end
time. -/
theorem merge_pre_cons_of_end_eq {x y : Segment} (hxy : x.«end» = y.«end»)
    {l : List Segment} (h : merge_pre (x :: l)) : merge_pre (y :: l) := by
  cases l with
  | nil => trivial
  | cons b r =>
    obtain ⟨h1, h2, h3⟩ := h
    exact ⟨hxy ▸ h1, hxy ▸ h2, h3⟩

/-- Padding an ordered keep list by a non-negative margin yields a list
satisfying the merge precondition. -/
theorem merge_pre_padded {l : List Segment} (h : ordered_keep l = true)
    {m : ℚ} (hm : 0 ≤ m) : merge_pre (l.map (pad m)) := by
  induction l with
  | nil => trivial
  | cons a rest ih =>
    cases rest with
    | nil => trivial
    | cons b rest' =>
      obtain ⟨h0, h1, h2, h3⟩ := ordered_keep_cons_cons h
      have ha_pos : 0 < a.«end» := lt_of_le_of_lt h0 h1
      have hpa : pad m a = ⟨a.start, a.«end» + m⟩ := by rw [pad, if_pos ha_pos]
      have htail := ih h3
      refine ⟨?_, ?_, htail⟩
      · rw [hpa]
        show a.«end» + m ≠ SENTINEL
        rw [SENTINEL]
        intro hc
        have : a.«end» + m > 0 := by positivity
        rw [hc] at this
        norm_num at this
      · rcases ordered_keep_end_pos h3 b (List.mem_cons_self b rest') with
          hbsent | hbpos
        · left
          show (pad m b).«end» = SENTINEL
          rw [pad, if_neg (by rw [hbsent, SENTINEL]; norm_num), hbsent]
        · right
          have hpb : pad m b = ⟨b.start, b.«end» + m⟩ := by
            rw [pad, if_pos hbpos]
          rw [hpa, hpb]
          show a.«end» + m ≤ b.«end» + m
          have hb_lt : b.start < b.«end» := by
            rcases (ordered_keep_head h3).2 with hc | hc
            · rw [hc, SENTINEL] at hbpos; norm_num at hbpos
            · exact hc
          linarith

/-- Under the merge precondition, the source merge loop (which always
takes the incoming segment's end when fusing) agrees with the spec merge
scan (later end, sentinel dominating). -/
theorem merge_segments_eq_merge_spec (l : List Segment) (cur : Segment)
    (h : merge_pre (cur :: l)) :
    merge_segments (some cur) l = merge_spec (some cur) l := by
  induction l generalizing cur with
  | nil => rfl
  | cons seg rest ih =>
    obtain ⟨h1, h2, h3⟩ := h
    by_cases hc : cur.«end» < seg.start
    · rw [merge_segments, if_pos hc, merge_spec, if_neg (not_le.mpr hc)]
      rw [ih seg h3]
    · have hge : cur.«end» ≥ seg.start := not_lt.mp hc
      have hfuse : fuse cur seg = (⟨cur.start, seg.«end»⟩ : Segment) := by
        by_cases hbs : seg.«end» = SENTINEL
        · rw [fuse, if_pos (Or.inr hbs), hbs]
        · have hle : cur.«end» ≤ seg.«end» := h2.resolve_left hbs
          rw [fuse, if_neg (by rintro (hca | hcb); exact h1 hca; exact hbs hcb),
            max_eq_right hle]
      rw [merge_segments, if_neg hc, merge_spec, if_pos hge, hfuse]
      exact ih _ (merge_pre_cons_of_end_eq
        (show seg.«end» = (⟨cur.start, seg.«end»⟩ : Segment).«end» from rfl) h3)

/-- C5: on an ordered keep-segment list in which only the final segment
may carry the sentinel end, `extend_end` with a non-negative margin
behaves exactly as the spec describes the Segment Padder/Merger: every
finite end is extended by the margin, the sentinel end is untouched, and
the left-to-right scan fuses exactly when the accumulated end reaches
the next start, the fused segment spanning from the accumulated start to
the later end with the sentinel dominating. -/
theorem extend_end_matches_spec (l : List Segment) (m : ℚ) (hm : 0 ≤ m)
    (hl : ordered_keep l = true) :
    extend_end l m = extend_end_spec l m := by
  unfold extend_end extend_end_spec
  rw [← map_pad_eq_map_pad_spec hl m]
  have hpre := merge_pre_padded hl hm
  cases hmap : l.map (pad m) with
  | nil => rfl
  | cons c rest =>
    rw [hmap] at hpre
    rw [show merge_segments none (c :: rest) = merge_segments (some c) rest
        from by rw [merge_segments],
      show merge_spec none (c :: rest) = merge_spec (some c) rest
        from by rw [merge_spec]]
    exact merge_segments_eq_merge_spec rest c hpre

/-- C5 witness: both worked examples of the spec, with margin 5:
`[(5,96),(100,120),(130,SENTINEL)]` pads and merges to
`[(5,125),(130,SENTINEL)]`, and `[(5,6),(100,120),(130,SENTINEL)]` pads
without merging to `[(5,11),(100,125),(130,SENTINEL)]`. -/
theorem extend_end_matches_spec_witness :
    (0 : ℚ) ≤ 5 ∧
    ordered_keep [⟨5, 96⟩, ⟨100, 120⟩, ⟨130, -1⟩] = true ∧
    ordered_keep [⟨5, 6⟩, ⟨100, 120⟩, ⟨130, -1⟩] = true ∧
    extend_end [⟨5, 96⟩, ⟨100, 120⟩, ⟨130, -1⟩] 5 = [⟨5, 125⟩, ⟨130, -1⟩] ∧
    extend_end [⟨5, 6⟩, ⟨100, 120⟩, ⟨130, -1⟩] 5 =
      [⟨5, 11⟩, ⟨100, 125⟩, ⟨130, -1⟩] :=
  ⟨by norm_num,
   by norm_num [ordered_keep, SENTINEL],
   by norm_num [ordered_keep, SENTINEL],
   (extend_end_matches_spec [⟨5, 96⟩, ⟨100, 120⟩, ⟨130, -1⟩] 5 (by norm_num)
      (by norm_num [ordered_keep, SENTINEL])).trans
     (by norm_num [extend_end_spec, pad_spec, merge_spec, fuse, SENTINEL]),
   (extend_end_matches_spec [⟨5, 6⟩, ⟨100, 120⟩, ⟨130, -1⟩] 5 (by norm_num)
      (by norm_num [ordered_keep, SENTINEL])).trans
     (by norm_num [extend_end_spec, pad_spec, merge_spec, fuse, SENTINEL])⟩

/-- Unfolding the retry loop at a successful attempt. -/
theorem call_and_retry_from_success (behavior : ℕ → Outcome)
    (retries num : ℕ) (hn : num < retries)
    (hb : behavior num = Outcome.success) :
    call_and_retry_from behavior retries num = RunResult.ok (num + 1) := by
  unfold call_and_retry_from
  rw [dif_pos hn, hb]

/-- Unfolding the retry loop at a failing attempt. -/
theorem call_and_retry_from_fail (behavior : ℕ → Outcome)
    (retries num : ℕ) (hn : num < retries) (rc : Int)
    (hb : behavior num = Outcome.fail rc) :
    call_and_retry_from behavior retries num =
      if rc ≠ -SIGSEGV then RunResult.raised rc (num + 1)
      else if num = retries - 1 then RunResult.raised rc (num + 1)
      else call_and_retry_from behavior retries (num + 1) := by
  conv_lhs => rw [call_and_retry_from]
  rw [dif_pos hn, hb]

/-- When every remaining attempt segfaults, the retry loop exhausts the
bound and re-raises the segfault failure after exactly `retries`
invocations. -/
theorem call_and_retry_from_all_segv (behavior : ℕ → Outcome) (retries : ℕ) :
    ∀ fuel num, retries - num = fuel → num < retries →
    (∀ i, num ≤ i → i < retries → behavior i = Outcome.fail (-SIGSEGV)) →
    call_and_retry_from behavior retries num =
      RunResult.raised (-SIGSEGV) retries := by
  intro fuel
  induction fuel with
  | zero => intro num hf hn _; omega
  | succ f ih =>
    intro num hf hn hseg
    rw [call_and_retry_from_fail behavior retries num hn (-SIGSEGV)
      (hseg num le_rfl hn)]
    rw [if_neg (by simp)]
    by_cases hlast : num = retries - 1
    · rw [if_pos hlast]
      have : num + 1 = retries := by omega
      rw [this]
    · rw [if_neg hlast]
      exact ih (num + 1) (by omega) (by omega)
        (fun i h1 h2 => hseg i (by omega) h2)

/-- When the attempts before `k` segfault and attempt `k` succeeds
within the bound, the loop returns after exactly `k + 1` invocations. -/
theorem call_and_retry_from_segv_then_ok (behavior : ℕ → Outcome)
    (retries k : ℕ) (hk : k < retries)
    (hseg : ∀ i, i < k → behavior i = Outcome.fail (-SIGSEGV))
    (hok : behavior k = Outcome.success) :
    ∀ fuel num, retries - num = fuel → num ≤ k →
    call_and_retry_from behavior retries num = RunResult.ok (k + 1) := by
  intro fuel
  induction fuel with
  | zero => intro num hf hn; omega
  | succ f ih =>
    intro num hf hn
    have hnum : num < retries := by omega
    by_cases hnk : num = k
    · subst hnk
      exact call_and_retry_from_success behavior retries num hnum hok
    · rw [call_and_retry_from_fail behavior retries num hnum (-SIGSEGV)
        (hseg num (by omega))]
      rw [if_neg (by simp)]
      rw [if_neg (by omega)]
      exact ih (num + 1) (by omega) (by omega)

/-- C7: for every command behaviour and retry bound of at least one
attempt: a successful invocation is executed exactly once and returns; a
failure whose return code is not the negated segfault signal is raised
at once, after a single invocation; an invocation that segfaults on
every attempt is re-attempted until the bound is exhausted and the
segfault failure is then raised, after exactly `retries` invocations;
and a segfault streak followed by a success within the bound returns
after that success. -/
theorem call_and_retry_policy (behavior : ℕ → Outcome) (retries : ℕ)
    (hr : 1 ≤ retries) :
    (behavior 0 = Outcome.success →
      call_and_retry behavior retries = RunResult.ok 1) ∧
    (∀ rc : Int, rc ≠ -SIGSEGV → behavior 0 = Outcome.fail rc →
      call_and_retry behavior retries = RunResult.raised rc 1) ∧
    ((∀ i, i < retries → behavior i = Outcome.fail (-SIGSEGV)) →
      call_and_retry behavior retries = RunResult.raised (-SIGSEGV) retries) ∧
    (∀ k, k < retries → (∀ i, i < k → behavior i = Outcome.fail (-SIGSEGV)) →
      behavior k = Outcome.success →
      call_and_retry behavior retries = RunResult.ok (k + 1)) := by
  refine ⟨?_, ?_, ?_, ?_⟩
  · intro h0
    exact call_and_retry_from_success behavior retries 0 (by omega) h0
  · intro rc hrc h0
    unfold call_and_retry
    rw [call_and_retry_from_fail behavior retries 0 (by omega) rc h0,
      if_pos hrc]
  · intro hseg
    exact call_and_retry_from_all_segv behavior retries (retries - 0) 0 rfl
      (by omega) (fun i _ h2 => hseg i h2)
  · intro k hk hseg hok
    exact call_and_retry_from_segv_then_ok behavior retries k hk hseg hok
      (retries - 0) 0 rfl (by omega)

/-- C7 witness: with the default bound of 2 attempts, an
always-succeeding command runs once, a command failing with return code
1 is raised after one attempt, and an always-segfaulting command is
raised after both attempts. -/
theorem call_and_retry_policy_witness :
    1 ≤ DEFAULT_RETRIES ∧
    call_and_retry (fun _ => Outcome.success) DEFAULT_RETRIES =
      RunResult.ok 1 ∧
    call_and_retry (fun _ => Outcome.fail 1) DEFAULT_RETRIES =
      RunResult.raised 1 1 ∧
    call_and_retry (fun _ => Outcome.fail (-SIGSEGV)) DEFAULT_RETRIES =
      RunResult.raised (-SIGSEGV) DEFAULT_RETRIES :=
  ⟨by norm_num [DEFAULT_RETRIES],
   (call_and_retry_policy (fun _ => Outcome.success) DEFAULT_RETRIES
      (by norm_num [DEFAULT_RETRIES])).1 rfl,
   (call_and_retry_policy (fun _ => Outcome.fail 1) DEFAULT_RETRIES
      (by norm_num [DEFAULT_RETRIES])).2.1 1 (by norm_num [SIGSEGV]) rfl,
   (call_and_retry_policy (fun _ => Outcome.fail (-SIGSEGV)) DEFAULT_RETRIES
      (by norm_num [DEFAULT_RETRIES])).2.2.1 (fun _ _ => rfl)⟩

/-- The enumerated extraction fails exactly when some worker's
extraction fails. -/
theorem starmap_write_error_iff (extract : ℕ → Segment → Except Unit ℕ)
    (ps : List (ℕ × Segment)) :
    starmap_write extract ps = Except.error () ↔
      ∃ p ∈ ps, extract p.1 p.2 = Except.error () := by
  induction ps with
  | nil => simp [starmap_write]
  | cons p rest ih =>
    obtain ⟨i, seg⟩ := p
    cases hx : extract i seg with
    | error e =>
      cases e
      simp only [starmap_write, write_segment_file, hx, List.mem_cons]
      exact iff_of_true (by trivial) ⟨(i, seg), Or.inl rfl, hx⟩
    | ok size =>
      by_cases hsize : size < MIN_SEGMENT_SIZE <;>
      · cases hr : starmap_write extract rest with
        | error e =>
          cases e
          simp only [starmap_write, write_segment_file, hx, hr, hsize,
            if_true, if_false, List.mem_cons]
          refine iff_of_true (by trivial) ?_
          obtain ⟨q, hq, hqe⟩ := ih.mp hr
          exact ⟨q, Or.inr hq, hqe⟩
        | ok names =>
          simp only [starmap_write, write_segment_file, hx, hr, hsize,
            if_true, if_false, List.mem_cons]
          refine iff_of_false (by simp) ?_
          rintro ⟨q, hq | hq, hqe⟩
          · rw [hq] at hqe
            rw [hx] at hqe
            exact Except.noConfusion hqe
          · have hcontra := ih.mpr ⟨q, hq, hqe⟩
            rw [hr] at hcontra
            exact Except.noConfusion hcontra

/-- When no worker fails, the enumerated extraction returns, in input
order, an entry per segment: an excluded marker for a below-threshold
file, the segment file (identified by index) otherwise. -/
theorem starmap_write_ok_eq (extract : ℕ → Segment → Except Unit ℕ)
    (ps : List (ℕ × Segment))
    (h : ∀ p ∈ ps, extract p.1 p.2 ≠ Except.error ()) :
    starmap_write extract ps = Except.ok (ps.map fun p =>
      match extract p.1 p.2 with
      | Except.ok size =>
        if size < MIN_SEGMENT_SIZE then none else some p.1
      | Except.error _ => none) := by
  induction ps with
  | nil => rfl
  | cons p rest ih =>
    obtain ⟨i, seg⟩ := p
    obtain ⟨size, hx⟩ : ∃ size, extract i seg = Except.ok size := by
      cases hx : extract i seg with
      | error e =>
        cases e
        exact absurd hx (h (i, seg) (List.mem_cons_self _ _))
      | ok size => exact ⟨size, rfl⟩
    have hrest := ih fun q hq => h q (List.mem_cons_of_mem _ hq)
    simp only [starmap_write, write_segment_file, hx, hrest, List.map_cons]
    by_cases hsize : size < MIN_SEGMENT_SIZE <;> simp [hsize]

/-- Every entry of an enumeration starting at `k` has index at least
`k`. -/
theorem enumFrom_fst_le (l : List Segment) (k : ℕ) :
    ∀ p ∈ l.enumFrom k, k ≤ p.1 := by
  induction l generalizing k with
  | nil => intro p hp; cases hp
  | cons x xs ih =>
    intro p hp
    rw [List.enumFrom_cons] at hp
    rcases List.mem_cons.mp hp with rfl | hp'
    · exact le_rfl
    · exact le_trans (Nat.le_succ k) (ih (k + 1) p hp')

/-- The indices of an enumeration are strictly increasing. -/
theorem pairwise_fst_lt_enumFrom (l : List Segment) (k : ℕ) :
    List.Pairwise (fun a b : ℕ × Segment => a.1 < b.1) (l.enumFrom k) := by
  induction l generalizing k with
  | nil => constructor
  | cons x xs ih =>
    rw [List.enumFrom_cons]
    constructor
    · intro p hp
      exact lt_of_lt_of_le (Nat.lt_succ_self k) (enumFrom_fst_le xs (k + 1) p hp)
    · exact ih (k + 1)

/-- C8: a genuine extraction failure of any worker aborts the whole
extraction phase; when no worker fails, the surviving segment files are
listed in strictly increasing original segment-index order, independent
of completion order, and a segment file appears exactly when its
extraction produced a file of at least the minimum plausible size —
below-threshold segments are excluded without aborting the run. -/
theorem write_segments_policy (extract : ℕ → Segment → Except Unit ℕ)
    (segments : List Segment) :
    (write_segments extract segments = Except.error () ↔
      ∃ p ∈ segments.enum, extract p.1 p.2 = Except.error ()) ∧
    ∀ files, write_segments extract segments = Except.ok files →
      List.Pairwise (fun a b => a < b) files ∧
      ∀ j, (j ∈ files ↔ ∃ seg size, segments[j]? = some seg ∧
        extract j seg = Except.ok size ∧ ¬size < MIN_SEGMENT_SIZE) := by
  constructor
  · cases hsm : starmap_write extract segments.enum with
    | error e =>
      cases e
      simp only [write_segments, hsm]
      exact iff_of_true (by trivial)
        ((starmap_write_error_iff extract segments.enum).mp hsm)
    | ok names =>
      simp only [write_segments, hsm]
      refine iff_of_false (fun hc => Except.noConfusion hc) ?_
      intro hex
      have hcontra := (starmap_write_error_iff extract segments.enum).mpr hex
      rw [hsm] at hcontra
      exact Except.noConfusion hcontra
  · intro files hfiles
    have hnoerr : ∀ p ∈ segments.enum, extract p.1 p.2 ≠ Except.error () := by
      intro p hp hc
      have herr := (starmap_write_error_iff extract segments.enum).mpr
        ⟨p, hp, hc⟩
      unfold write_segments at hfiles
      rw [herr] at hfiles
      exact Except.noConfusion hfiles
    have hok := starmap_write_ok_eq extract segments.enum hnoerr
    have hfe : files = segments.enum.filterMap fun p =>
        match extract p.1 p.2 with
        | Except.ok size =>
          if size < MIN_SEGMENT_SIZE then none else some p.1
        | Except.error _ => none := by
      unfold write_segments at hfiles
      rw [hok] at hfiles
      simp only [Except.ok.injEq] at hfiles
      rw [← hfiles, List.filterMap_map]
      rfl
    constructor
    · rw [hfe]
      refine List.Pairwise.filterMap _ ?_ (pairwise_fst_lt_enumFrom segments 0)
      intro a a' hlt b hb b' hb'
      have hba : b = a.1 := by
        revert hb
        cases extract a.1 a.2 with
        | error e => intro hb; cases hb
        | ok size =>
          by_cases hsize : size < MIN_SEGMENT_SIZE <;> simp [hsize]
          intro hb
          exact hb.symm
      have hba' : b' = a'.1 := by
        revert hb'
        cases extract a'.1 a'.2 with
        | error e => intro hb'; cases hb'
        | ok size =>
          by_cases hsize : size < MIN_SEGMENT_SIZE <;> simp [hsize]
          intro hb'
          exact hb'.symm
      rw [hba, hba']
      exact hlt
    · intro j
      rw [hfe, List.mem_filterMap]
      constructor
      · rintro ⟨p, hp, hgp⟩
        cases hx : extract p.1 p.2 with
        | error e => cases e; exact absurd hx (hnoerr p hp)
        | ok size =>
          rw [hx] at hgp
          by_cases hsize : size < MIN_SEGMENT_SIZE
          · simp [hsize] at hgp
          · simp only [hsize, if_false, if_neg, Option.some.injEq] at hgp
            refine ⟨p.2, size, ?_, ?_, hsize⟩
            · rw [← hgp]
              exact List.mem_enum_iff_getElem?.mp hp
            · rw [← hgp]
              exact hx
      · rintro ⟨seg, size, hget, hx, hsize⟩
        refine ⟨(j, seg), List.mem_enum_iff_getElem?.mpr hget, ?_⟩
        show (match extract j seg with
          | Except.ok size =>
            if size < MIN_SEGMENT_SIZE then none else some j
          | Except.error _ => none) = some j
        rw [hx]
        simp [hsize]

/-- C8 witness: on the three-segment example list, a behaviour that
fails on segment 1 aborts the whole extraction, while a behaviour that
produces a 12-byte file for segment 1 (and 5000-byte files otherwise)
yields the concatenation list `[0, 2]`: segment 1 is excluded without
aborting and the survivors are in original index order. -/
theorem write_segments_policy_witness :
    write_segments extract_err segments_ex = Except.error () ∧
    (List.Pairwise (fun a b => a < b) [0, 2] ∧
      ∀ j, (j ∈ ([0, 2] : List ℕ) ↔ ∃ seg size, segments_ex[j]? = some seg ∧
        extract_ex j seg = Except.ok size ∧ ¬size < MIN_SEGMENT_SIZE)) :=
  ⟨(write_segments_policy extract_err segments_ex).1.mpr
    ⟨(1, ⟨10, 20⟩), by decide, rfl⟩,
   (write_segments_policy extract_ex segments_ex).2 [0, 2] rfl⟩

end PlexComskip
